import Mathlib

set_option maxRecDepth 8000

/-!
Shallow embedding of `src/solution.py` (batch answer-selection pipeline).

Strings are modelled as `List Char`; Python's `str` methods used by the
program (`lower`, `strip`, `split`, `replace`, substring `in`) and the two
regular expressions of `parse_options` are translated char-by-char below.
JSON/pickle values flowing through the batch driver are modelled by the
inductive `PyValue`.
-/

/-- Characters matched by Python's regex class `\s` (and by `str.isspace`,
which governs `str.strip`): ASCII whitespace, the C1 separators, and the
Unicode space characters. -/
def isSpacePy (c : Char) : Bool :=
  (9 ≤ c.toNat && c.toNat ≤ 13) || c.toNat == 32 ||
  (28 ≤ c.toNat && c.toNat ≤ 31) ||
  c.toNat == 0x85 || c.toNat == 0xa0 || c.toNat == 0x1680 ||
  (0x2000 ≤ c.toNat && c.toNat ≤ 0x200a) || c.toNat == 0x2028 ||
  c.toNat == 0x2029 || c.toNat == 0x202f || c.toNat == 0x205f ||
  c.toNat == 0x3000

/-- The character class `[A-ZА-Я]` of the option regexes: uppercase Latin
`A`..`Z` (65..90) or uppercase Cyrillic `А`..`Я` (0x410..0x42F). -/
def isUpperLetterPy (c : Char) : Bool :=
  (65 ≤ c.toNat && c.toNat ≤ 90) || (0x410 ≤ c.toNat && c.toNat ≤ 0x42F)

/-- Python `str.lower`, restricted to the alphabets the program handles:
uppercase Latin and Cyrillic map down by 32 code points (plus Ё -> ё);
every other character is left unchanged. -/
def toLowerPy (c : Char) : Char :=
  if 65 ≤ c.toNat && c.toNat ≤ 90 then Char.ofNat (c.toNat + 32)
  else if 0x410 ≤ c.toNat && c.toNat ≤ 0x42F then Char.ofNat (c.toNat + 32)
  else if c.toNat == 0x401 then Char.ofNat 0x451
  else c

/-- Python `s.lower()` on a whole string. -/
def lowerStr (s : List Char) : List Char := s.map toLowerPy

/-- Python `s.replace(src, out)` for a one-character `src` (every `replace`
in `normalize_equation` has a one-character source, so the left-to-right
scan degenerates to a per-character expansion). -/
def replaceCharStr (src : Char) (out : List Char) : List Char → List Char
  | [] => []
  | c :: rest => (if c == src then out else [c]) ++ replaceCharStr src out rest

/-- Helper for the substring test: does `needle` start `hay`? -/
def isPrefixOfL : List Char → List Char → Bool
  | [], _ => true
  | _ :: _, [] => false
  | a :: as, b :: bs => a == b && isPrefixOfL as bs

/-- Python's substring operator `needle in hay`. -/
def containsSub : List Char → List Char → Bool
  | [], needle => isPrefixOfL needle []
  | hay@(_ :: t), needle => isPrefixOfL needle hay || containsSub t needle

/-- Python `text.replace("\r\n", "\n")` (left-to-right, non-overlapping). -/
def replaceCRLF : List Char → List Char
  | [] => []
  | [c] => [c]
  | c :: d :: rest =>
    if c == '\r' && d == '\n' then '\n' :: replaceCRLF rest
    else c :: replaceCRLF (d :: rest)

/-- Python `text.replace("\r", "\n")`. -/
def replaceCR (l : List Char) : List Char :=
  l.map fun c => if c == '\r' then '\n' else c

/-- Python `s.strip()` with no argument: drop whitespace from both ends. -/
def stripPy (l : List Char) : List Char :=
  ((l.dropWhile isSpacePy).reverse.dropWhile isSpacePy).reverse

/-- Python `text.split("\n")` (an empty text yields one empty chunk). -/
def splitLines : List Char → List (List Char)
  | [] => [[]]
  | c :: rest =>
    if c == '\n' then [] :: splitLines rest
    else
      match splitLines rest with
      | [] => [[c]]
      | h :: t => (c :: h) :: t

/-- `normalize_equation` from the source: lowercase, replace the subscript
digits one and two, delete every `\s` character (`re.sub` with an empty
replacement), then canonicalize the comparison symbols, in the exact
order of the `replace` calls of the source (the last two are redundant
repeats kept for fidelity). -/
def normalize_equation (s : List Char) : List Char :=
  let s1 := lowerStr s
  let s2 := replaceCharStr '₂' ['2'] (replaceCharStr '₁' ['1'] s1)
  let s3 := s2.filter fun c => !isSpacePy c
  let s4 := replaceCharStr '≠' ['!', '='] (replaceCharStr '＝' ['='] s3)
  let s5 := replaceCharStr '≥' ['>', '='] (replaceCharStr '≤' ['<', '='] s4)
  let s6 := replaceCharStr '⩾' ['>', '='] (replaceCharStr '⩽' ['<', '='] s5)
  replaceCharStr '⩽' ['<', '='] (replaceCharStr '⩾' ['>', '='] s6)

/-- The negative lookahead `(?!\n[A-ZА-Я]\.)` of the primary option regex:
the capture of an option body stops exactly before a newline that is
followed by an uppercase letter and a period. -/
def stopLookahead : List Char → Bool
  | '\n' :: b :: c :: _ => isUpperLetterPy b && c == '.'
  | _ => false

/-- Greedy capture `((?:(?!\n[A-ZА-Я]\.).)*)` under `re.DOTALL`: consume
characters until the lookahead stops the match (or the text ends);
returns the captured text and the remaining text. -/
def takeOptText : List Char → List Char × List Char
  | [] => ([], [])
  | c :: rest =>
    if stopLookahead (c :: rest) then ([], c :: rest)
    else
      let p := takeOptText rest
      (c :: p.1, p.2)

/-- `re.findall` for the primary pattern
`([A-ZА-Я])\.\s*((?:(?!\n[A-ZА-Я]\.).)*)` with `re.DOTALL`: scan left to
right; at an uppercase letter followed by a period, greedily skip `\s*`,
capture with `takeOptText`, emit the pair and resume after the match;
otherwise advance one character.  `fuel` bounds the recursion; every step
consumes at least one character per unit of fuel, so `fuel = length` (as
passed by `parse_options`) never runs out. -/
def scanOptionsF : Nat → List Char → List (Char × List Char)
  | 0, _ => []
  | _ + 1, [] => []
  | _ + 1, [_] => []
  | fuel + 1, a :: b :: rest2 =>
    if isUpperLetterPy a && b == '.' then
      let afterWs := rest2.dropWhile isSpacePy
      (a, (takeOptText afterWs).1) :: scanOptionsF fuel (takeOptText afterWs).2
    else scanOptionsF fuel (b :: rest2)

/-- The fallback per-line regex `re.match(r'^\s*([A-ZА-Я])\.\s*(.+)$', line.strip())`
of `parse_options`, together with the subsequent `.strip()` of the captured
group.  After `strip`, `^\s*` matches the empty string; the match succeeds
exactly when the stripped line is an uppercase letter, a period, and a
non-empty remainder; the group `(.+)` starts after the greedy `\s*`. -/
def fallbackLine (line : List Char) : Option (Char × List Char) :=
  match stripPy line with
  | a :: b :: rest =>
    if isUpperLetterPy a && b == '.' then
      match rest.dropWhile isSpacePy with
      | [] => Option.none
      | r2 => Option.some (a, stripPy r2)
    else Option.none
  | _ => Option.none

/-- `parse_options` from the source: normalize line endings, run the
primary regex over the whole text; if it produced at least one match,
return the matches with stripped bodies, otherwise run the per-line
fallback. -/
def parse_options (question_text : List Char) : List (Char × List Char) :=
  let text := replaceCR (replaceCRLF question_text)
  let found := scanOptionsF text.length text
  if !found.isEmpty then
    found.map fun p => (p.1, stripPy p.2)
  else
    (splitLines text).filterMap fallbackLine

/-- The local `norm_opts` of `baseline_heuristic`: each option letter with
the normalized option text. -/
def norm_opts (options : List (Char × List Char)) : List (Char × List Char) :=
  options.map fun p => (p.1, normalize_equation p.2)

/-- The local `has_h1_eq_h2` of `baseline_heuristic`: the normalized
options whose text contains `h1=h2`. -/
def eq_h1h2_opts (options : List (Char × List Char)) : List (Char × List Char) :=
  (norm_opts options).filter fun p => containsSub p.2 "h1=h2".data

/-- The local `has_cannot_determine` of `baseline_heuristic`: the letters
of the options whose (lowercased, original) text contains
`cannot be determined`. -/
def cannot_det_letters (options : List (Char × List Char)) : List Char :=
  (options.filter fun p =>
    containsSub (lowerStr p.2) "cannot be determined".data).map fun p => p.1

/-- The local `looks_like_liquid` of `baseline_heuristic`:
`any(tag in normalized_q for tag in ["h1", "h2"]) and "level" in question_text.lower()`. -/
def looks_like_liquid (question_text : List Char) : Bool :=
  (["h1".data, "h2".data].any fun tag =>
    containsSub (normalize_equation question_text) tag) &&
  containsSub (lowerStr question_text) "level".data

/-- Sorted insertion without duplicates; folding it models Python's
`sorted(set(xs))` (ascending by code point, each letter once). -/
def insertDedup (x : Char) : List Char → List Char
  | [] => [x]
  | y :: rest =>
    if x < y then x :: y :: rest
    else if x == y then y :: rest
    else y :: insertDedup x rest

/-- Python `sorted(set(l))` for a list of characters. -/
def sortedDedup (l : List Char) : List Char := l.foldr insertDedup []

/-- The final two rules of the cascade: the first option's letter if any
option exists, the empty string otherwise. -/
def defaultChoice (options : List (Char × List Char)) : List Char :=
  match options with
  | o :: _ => [o.1]
  | [] => []

/-- `baseline_heuristic` from the source: the ordered rule cascade
(liquid-level equality rule, indeterminacy rule, first-option default,
empty fallback).  In the source the rule-2 guard is
`has_cannot_determine and has_h1_gt_h2 and has_h2_gt_h1 and not has_h1_eq_h2`. -/
def baseline_heuristic (question_text : List Char)
    (options : List (Char × List Char)) : List Char :=
  if looks_like_liquid question_text && !(eq_h1h2_opts options).isEmpty then
    sortedDedup ((eq_h1h2_opts options).map fun p => p.1)
  else if !(cannot_det_letters options).isEmpty
      && ((norm_opts options).any fun p => containsSub p.2 "h1>h2".data)
      && ((norm_opts options).any fun p => containsSub p.2 "h2>h1".data)
      && (eq_h1h2_opts options).isEmpty then
    sortedDedup (cannot_det_letters options)
  else
    defaultChoice options

/-- Python values flowing through pickle/JSON in the batch driver. -/
inductive PyValue where
  | none : PyValue
  | bool (b : Bool) : PyValue
  | int (n : Int) : PyValue
  | str (s : List Char) : PyValue
  | list (items : List PyValue) : PyValue
  | dict (entries : List (List Char × PyValue)) : PyValue

/-- `d.get(key)` on a Python dict (keys of a dict literal are unique, so
the first hit is the binding). -/
def dictGet (d : List (List Char × PyValue)) (key : List Char) : Option PyValue :=
  (d.find? fun e => e.1 == key).map fun e => e.2

/-- The `rid = item.get("rid")` of `process_item` (and the
`item.get("rid", None)` of the exception handler in `main`): the bound
value, or Python `None` when the key is absent. -/
def ridOf (d : List (List Char × PyValue)) : PyValue :=
  (dictGet d "rid".data).getD PyValue.none

/-- The Python test `x is None`. -/
def isNone : PyValue → Bool
  | PyValue.none => true
  | _ => false

/-- `load_image` from the source.  Its body wraps every decode strategy in
`try`/`except` blocks that resolve any failure to `None`, and it returns
`None` outright when PIL is unavailable, so it is a total function; its
result is bound to `_` in `process_item` and discarded, so only its
totality is observable and the decoded value is modelled as erased. -/
def load_image (image_blob : PyValue) : Option Unit :=
  match image_blob with
  | _ => Option.none

/-- `process_item` from the source.  `item.get("question", "")` defaults to
the empty string; the first operation applied to the question is the string
method `.replace` inside `parse_options`, so a non-string question raises
(`AttributeError`/`TypeError`), modelled as `Except.error`; everything
after that point is total string processing. -/
def process_item (d : List (List Char × PyValue)) :
    Except Unit (PyValue × List Char) :=
  let rid := ridOf d
  let question := (dictGet d "question".data).getD (PyValue.str [])
  let image_blob := (dictGet d "image".data).getD PyValue.none
  let _img := load_image image_blob
  match question with
  | PyValue.str q => Except.ok (rid, baseline_heuristic q (parse_options q))
  | _ => Except.error ()

/-- One iteration of the `for item in data` loop of `main`.  For a dict
item the `try` body either appends the result (it always carries both
keys, so the `ValueError` guard never fires) or the handler appends
`{"rid": rid, "answer": ""}` when the recovered rid is not `None`.  For a
non-dict item, `item.get` raises inside the `try` body and raises again
inside the handler, so the exception propagates (modelled as
`Except.error`). -/
def batchStep (item : PyValue) : Except Unit (List (PyValue × List Char)) :=
  match item with
  | PyValue.dict d =>
    match process_item d with
    | Except.ok res => Except.ok [res]
    | Except.error _ =>
      if isNone (ridOf d) then Except.ok []
      else Except.ok [(ridOf d, [])]
  | _ => Except.error ()

/-- The whole record loop of `main`, accumulating `results` in order; an
uncaught exception aborts the loop. -/
def runBatch : List PyValue → Except Unit (List (PyValue × List Char))
  | [] => Except.ok []
  | item :: rest =>
    match batchStep item with
    | Except.error e => Except.error e
    | Except.ok rs =>
      match runBatch rest with
      | Except.error e => Except.error e
      | Except.ok rest2 => Except.ok (rs ++ rest2)

/-- Is the payload usable as a record, i.e. a Python dict? -/
def isDictVal : PyValue → Bool
  | PyValue.dict _ => true
  | _ => false

/-- Is the deserialized value a list of mappings? -/
def isListOfDicts : PyValue → Bool
  | PyValue.list items => items.all isDictVal
  | _ => false

/-- `Except.isOk` spelled out for the error type used here. -/
def isOkE {α : Type} : Except Unit α → Bool
  | Except.ok _ => true
  | Except.error _ => false

/-- Exit code of `main` as a function of the outcome of the input read
(`Except.error` models an unreadable or undeserializable pickle) and of
whether the output write would succeed.  A non-list payload hits the
explicit `isinstance` check (`sys.exit(1)`); a list containing a non-dict
makes the loop raise an uncaught exception, which terminates the
interpreter with status 1 and a traceback on stderr; a failed write hits
the final `sys.exit(1)`; otherwise `main` returns and the process exits 0. -/
def mainModel (readRes : Except Unit PyValue) (writeOk : Bool) : Nat :=
  match readRes with
  | Except.error _ => 1
  | Except.ok data =>
    match data with
    | PyValue.list items =>
      match runBatch items with
      | Except.error _ => 1
      | Except.ok _ => if writeOk then 0 else 1
    | _ => 1

/-- Modelled from the claim's wording (C3): the condition under which the
batch driver is claimed to exit with code 1 — the input cannot be
read/deserialized, or the deserialized value is not a list of mappings,
or the output cannot be written. -/
def claimFatalCond (readRes : Except Unit PyValue) (writeOk : Bool) : Bool :=
  (match readRes with
   | Except.error _ => true
   | Except.ok data => !isListOfDicts data) || !writeOk

/-- The characters a normalized string may contain: stable under
lowercasing, and none of the characters the normalizer rewrites or
deletes. -/
def goodChar (c : Char) : Prop :=
  toLowerPy c = c ∧ c ≠ '₁' ∧ c ≠ '₂' ∧ isSpacePy c = false ∧
  c ≠ '＝' ∧ c ≠ '≠' ∧ c ≠ '≤' ∧ c ≠ '≥' ∧ c ≠ '⩽' ∧ c ≠ '⩾'

instance (c : Char) : Decidable (goodChar c) := by
  unfold goodChar
  infer_instance

/-- Does the text start with an uppercase (Latin or Cyrillic) letter
immediately followed by a period — the two-character core shared by both
option regexes? -/
def startsLetterDot : List Char → Bool
  | a :: b :: _ => isUpperLetterPy a && b == '.'
  | _ => false

/-- Does the text contain a letter-dot pattern anywhere? -/
def hasLetterDot : List Char → Bool
  | [] => false
  | c :: rest => startsLetterDot (c :: rest) || hasLetterDot rest

/-! Lemmas about the character-level helpers. -/

theorem toNat_ofNat_small {n : Nat} (h : n < 55296) : (Char.ofNat n).toNat = n := by
  have hv : n.isValidChar := Or.inl h
  rw [Char.ofNat, dif_pos hv]
  simp [Char.ofNatAux, Char.toNat, UInt32.toNat]

theorem toLowerPy_eq_self {c : Char} (h1 : ¬(65 ≤ c.toNat ∧ c.toNat ≤ 90))
    (h2 : ¬(1040 ≤ c.toNat ∧ c.toNat ≤ 1071)) (h3 : ¬c.toNat = 1025) :
    toLowerPy c = c := by
  simp only [toLowerPy]
  rw [if_neg, if_neg, if_neg] <;> simp [h1, h2, h3]

theorem toLowerPy_idem (c : Char) : toLowerPy (toLowerPy c) = toLowerPy c := by
  by_cases h1 : 65 ≤ c.toNat ∧ c.toNat ≤ 90
  · have e : toLowerPy c = Char.ofNat (c.toNat + 32) := by
      simp only [toLowerPy]
      rw [if_pos (by simp [h1])]
    have ht : (Char.ofNat (c.toNat + 32)).toNat = c.toNat + 32 :=
      toNat_ofNat_small (by omega)
    rw [e]
    exact toLowerPy_eq_self (by rw [ht]; omega) (by rw [ht]; omega) (by rw [ht]; omega)
  · by_cases h2 : 1040 ≤ c.toNat ∧ c.toNat ≤ 1071
    · have e : toLowerPy c = Char.ofNat (c.toNat + 32) := by
        simp only [toLowerPy]
        rw [if_neg (by simp [h1]), if_pos (by simp [h2])]
      have ht : (Char.ofNat (c.toNat + 32)).toNat = c.toNat + 32 :=
        toNat_ofNat_small (by omega)
      rw [e]
      exact toLowerPy_eq_self (by rw [ht]; omega) (by rw [ht]; omega) (by rw [ht]; omega)
    · by_cases h3 : c.toNat = 1025
      · have e : toLowerPy c = Char.ofNat 1105 := by
          simp only [toLowerPy]
          rw [if_neg (by simp [h1]), if_neg (by simp [h2]), if_pos (by simp [h3])]
        have ht : (Char.ofNat 1105).toNat = 1105 := toNat_ofNat_small (by omega)
        rw [e]
        exact toLowerPy_eq_self (by rw [ht]; omega) (by rw [ht]; omega) (by rw [ht]; omega)
      · rw [toLowerPy_eq_self h1 h2 h3, toLowerPy_eq_self h1 h2 h3]

theorem mem_replaceCharStr {c src : Char} {out l : List Char}
    (h : c ∈ replaceCharStr src out l) : c ∈ out ∨ (c ∈ l ∧ c ≠ src) := by
  induction l with
  | nil => simp [replaceCharStr] at h
  | cons x rest ih =>
    simp only [replaceCharStr, List.mem_append] at h
    rcases h with h | h
    · by_cases hx : x == src
      · rw [if_pos hx] at h
        exact Or.inl h
      · rw [if_neg hx] at h
        simp only [List.mem_singleton] at h
        subst h
        exact Or.inr ⟨List.mem_cons_self _ _, by simpa using hx⟩
    · rcases ih h with h2 | ⟨hm, hne⟩
      · exact Or.inl h2
      · exact Or.inr ⟨List.mem_cons_of_mem _ hm, hne⟩

theorem replaceCharStr_id {src : Char} {out l : List Char}
    (h : ∀ c ∈ l, c ≠ src) : replaceCharStr src out l = l := by
  induction l with
  | nil => rfl
  | cons x rest ih =>
    have hx : (x == src) = false := by
      simpa using h x (List.mem_cons_self _ _)
    simp [replaceCharStr, hx, ih fun c hc => h c (List.mem_cons_of_mem _ hc)]

theorem map_id_of {f : Char → Char} {l : List Char} (h : ∀ c ∈ l, f c = c) :
    l.map f = l := by
  induction l with
  | nil => rfl
  | cons x rest ih =>
    simp [h x (List.mem_cons_self _ _),
      ih fun c hc => h c (List.mem_cons_of_mem _ hc)]

theorem normalize_goodChar {s : List Char} :
    ∀ c ∈ normalize_equation s, goodChar c := by
  intro c hc
  simp only [normalize_equation] at hc
  rcases mem_replaceCharStr hc with h | ⟨hc, ne8⟩
  · simp only [List.mem_cons, List.not_mem_nil, or_false] at h
    rcases h with rfl | rfl <;> decide
  rcases mem_replaceCharStr hc with h | ⟨hc, ne7⟩
  · simp only [List.mem_cons, List.not_mem_nil, or_false] at h
    rcases h with rfl | rfl <;> decide
  rcases mem_replaceCharStr hc with h | ⟨hc, ne6⟩
  · simp only [List.mem_cons, List.not_mem_nil, or_false] at h
    rcases h with rfl | rfl <;> decide
  rcases mem_replaceCharStr hc with h | ⟨hc, ne5⟩
  · simp only [List.mem_cons, List.not_mem_nil, or_false] at h
    rcases h with rfl | rfl <;> decide
  rcases mem_replaceCharStr hc with h | ⟨hc, ne4⟩
  · simp only [List.mem_cons, List.not_mem_nil, or_false] at h
    rcases h with rfl | rfl <;> decide
  rcases mem_replaceCharStr hc with h | ⟨hc, ne3⟩
  · simp only [List.mem_cons, List.not_mem_nil, or_false] at h
    rcases h with rfl | rfl <;> decide
  rcases mem_replaceCharStr hc with h | ⟨hc, ne2⟩
  · simp only [List.mem_cons, List.not_mem_nil, or_false] at h
    rcases h with rfl | rfl <;> decide
  rcases mem_replaceCharStr hc with h | ⟨hc, ne1⟩
  · simp only [List.mem_cons, List.not_mem_nil, or_false] at h
    subst h; decide
  rw [List.mem_filter] at hc
  obtain ⟨hc, hsp⟩ := hc
  rcases mem_replaceCharStr hc with h | ⟨hc, neB⟩
  · simp only [List.mem_cons, List.not_mem_nil, or_false] at h
    subst h; decide
  rcases mem_replaceCharStr hc with h | ⟨hc, neA⟩
  · simp only [List.mem_cons, List.not_mem_nil, or_false] at h
    subst h; decide
  simp only [lowerStr, List.mem_map] at hc
  obtain ⟨a, _, rfl⟩ := hc
  exact ⟨toLowerPy_idem a, neA, neB, by simpa using hsp,
    ne1, ne2, ne3, ne4, ne5, ne6⟩

theorem normalize_id_of_good {l : List Char} (h : ∀ c ∈ l, goodChar c) :
    normalize_equation l = l := by
  have hmap : lowerStr l = l := map_id_of fun c hc => (h c hc).1
  have hA : replaceCharStr '₁' ['1'] l = l :=
    replaceCharStr_id fun c hc => (h c hc).2.1
  have hB : replaceCharStr '₂' ['2'] l = l :=
    replaceCharStr_id fun c hc => (h c hc).2.2.1
  have hf : l.filter (fun c => !isSpacePy c) = l :=
    List.filter_eq_self.mpr fun c hc => by simp [(h c hc).2.2.2.1]
  have h1 : replaceCharStr '＝' ['='] l = l :=
    replaceCharStr_id fun c hc => (h c hc).2.2.2.2.1
  have h2 : replaceCharStr '≠' ['!', '='] l = l :=
    replaceCharStr_id fun c hc => (h c hc).2.2.2.2.2.1
  have h3 : replaceCharStr '≤' ['<', '='] l = l :=
    replaceCharStr_id fun c hc => (h c hc).2.2.2.2.2.2.1
  have h4 : replaceCharStr '≥' ['>', '='] l = l :=
    replaceCharStr_id fun c hc => (h c hc).2.2.2.2.2.2.2.1
  have h5 : replaceCharStr '⩽' ['<', '='] l = l :=
    replaceCharStr_id fun c hc => (h c hc).2.2.2.2.2.2.2.2.1
  have h6 : replaceCharStr '⩾' ['>', '='] l = l :=
    replaceCharStr_id fun c hc => (h c hc).2.2.2.2.2.2.2.2.2
  simp only [normalize_equation, lowerStr] at *
  rw [hmap, hA, hB, hf, h1, h2, h3, h4, h5, h6, h6, h5]

/-- C8: equation normalization is idempotent — for every string `s`,
`normalize_equation (normalize_equation s) = normalize_equation s`. -/
theorem c8_normalize_idempotent (s : List Char) :
    normalize_equation (normalize_equation s) = normalize_equation s :=
  normalize_id_of_good fun c hc => normalize_goodChar c hc

/-! Lemmas about the decision engine. -/

theorem mem_insertDedup {c x : Char} {l : List Char}
    (h : c ∈ insertDedup x l) : c = x ∨ c ∈ l := by
  induction l with
  | nil =>
    simp only [insertDedup, List.mem_singleton] at h
    exact Or.inl h
  | cons y rest ih =>
    simp only [insertDedup] at h
    split at h
    · exact List.mem_cons.mp h
    · split at h
      · right; exact h
      · rcases List.mem_cons.mp h with rfl | h2
        · right; exact List.mem_cons_self _ _
        · rcases ih h2 with h3 | h3
          · left; exact h3
          · right; exact List.mem_cons_of_mem _ h3

theorem mem_sortedDedup {c : Char} {l : List Char} (h : c ∈ sortedDedup l) :
    c ∈ l := by
  induction l with
  | nil => simp [sortedDedup] at h
  | cons x rest ih =>
    rcases mem_insertDedup (show c ∈ insertDedup x (sortedDedup rest) from h) with
      rfl | h2
    · exact List.mem_cons_self _ _
    · exact List.mem_cons_of_mem _ (ih h2)

theorem baseline_letters {q : List Char} {opts : List (Char × List Char)} :
    ∀ c ∈ baseline_heuristic q opts, ∃ p ∈ opts, p.1 = c := by
  intro c hc
  simp only [baseline_heuristic] at hc
  split at hc
  · have h2 := mem_sortedDedup hc
    simp only [eq_h1h2_opts, norm_opts, List.mem_map, List.mem_filter] at h2
    obtain ⟨p, ⟨⟨p0, hp0, rfl⟩, _⟩, hfst⟩ := h2
    exact ⟨p0, hp0, hfst⟩
  · split at hc
    · have h2 := mem_sortedDedup hc
      simp only [cannot_det_letters, List.mem_map, List.mem_filter] at h2
      obtain ⟨p, ⟨hp, _⟩, hfst⟩ := h2
      exact ⟨p, hp, hfst⟩
    · cases opts with
      | nil => simp [defaultChoice] at hc
      | cons o rest =>
        simp only [defaultChoice, List.mem_singleton] at hc
        exact ⟨o, List.mem_cons_self _ _, hc.symm⟩

theorem eq_h1h2_opts_eq (opts : List (Char × List Char)) :
    eq_h1h2_opts opts =
      (opts.filter fun p =>
        containsSub (normalize_equation p.2) "h1=h2".data).map
        fun p => (p.1, normalize_equation p.2) := by
  simp only [eq_h1h2_opts, norm_opts]
  rw [List.filter_map]
  rfl

/-- Shared engine for the liquid-level equality rule: whenever
`looks_like_liquid` holds and some option's normalized text contains
`h1=h2`, the cascade answers with the deduplicated, sorted letters of all
such options. -/
theorem baseline_rule1 {q : List Char} {opts : List (Char × List Char)}
    (hclass : looks_like_liquid q = true)
    (hex : ∃ p ∈ opts, containsSub (normalize_equation p.2) "h1=h2".data = true) :
    baseline_heuristic q opts =
      sortedDedup ((opts.filter fun p =>
        containsSub (normalize_equation p.2) "h1=h2".data).map fun p => p.1) := by
  obtain ⟨p, hp, hcont⟩ := hex
  have hmem : p ∈ opts.filter fun p =>
      containsSub (normalize_equation p.2) "h1=h2".data :=
    List.mem_filter.mpr ⟨hp, hcont⟩
  have hflt : (opts.filter fun p =>
      containsSub (normalize_equation p.2) "h1=h2".data) ≠ [] :=
    List.ne_nil_of_mem hmem
  have hne : (eq_h1h2_opts opts).isEmpty = false := by
    rw [eq_h1h2_opts_eq]
    simp [List.isEmpty_iff, hflt]
  simp only [baseline_heuristic, hclass, hne, Bool.not_false, Bool.and_self,
    if_true]
  rw [eq_h1h2_opts_eq, List.map_map]
  rfl

/-- C5: whenever the liquid-level classification holds and at least one
option's normalized text contains `h1=h2`, the decision returns the
letters of all such options, deduplicated and sorted ascending. -/
theorem c5_equality_rule (q : List Char) (opts : List (Char × List Char))
    (hclass : looks_like_liquid q = true)
    (hex : ∃ p ∈ opts, containsSub (normalize_equation p.2) "h1=h2".data = true) :
    baseline_heuristic q opts =
      sortedDedup ((opts.filter fun p =>
        containsSub (normalize_equation p.2) "h1=h2".data).map fun p => p.1) :=
  baseline_rule1 hclass hex

theorem c5_equality_rule_witness :
    looks_like_liquid "compare the liquid levels h1 and h2".data = true ∧
    (('A', "h1=h2".data) ∈ [('A', "h1=h2".data), ('C', "h1=h2".data)] ∧
      containsSub (normalize_equation "h1=h2".data) "h1=h2".data = true) ∧
    baseline_heuristic "compare the liquid levels h1 and h2".data
      [('A', "h1=h2".data), ('C', "h1=h2".data)] =
      sortedDedup (([('A', "h1=h2".data), ('C', "h1=h2".data)].filter fun p =>
        containsSub (normalize_equation p.2) "h1=h2".data).map fun p => p.1) ∧
    sortedDedup (([('A', "h1=h2".data), ('C', "h1=h2".data)].filter fun p =>
      containsSub (normalize_equation p.2) "h1=h2".data).map fun p => p.1) =
      "AC".data :=
  ⟨by decide, ⟨by decide, by decide⟩,
    c5_equality_rule _ _ (by decide)
      ⟨('A', "h1=h2".data), by decide, by decide⟩, by decide⟩

/-- C1 counterexample: with the question `level h1` — whose normalization
contains `h1` but not `h2` — and an equality option present, the
classification holds and rule 1 fires (the cascade answers `B`, the
equality option), whereas falling through to the later rules would have
answered `A` (the default).  The source computes the classification with
`any(... for tag in ["h1", "h2"])`, not with a conjunction. -/
theorem c1_rule1_counterexample :
    looks_like_liquid "level h1".data = true ∧
    containsSub (normalize_equation "level h1".data) "h2".data = false ∧
    baseline_heuristic "level h1".data
      [('A', "x".data), ('B', "h1=h2".data)] = "B".data ∧
    defaultChoice [('A', "x".data), ('B', "h1=h2".data)] = "A".data ∧
    ("B".data : List Char) ≠ "A".data :=
  ⟨by decide, by decide, by decide, by decide, by decide⟩

/-- C1 (amended): rule 1 classifies the question as a liquid-level
comparison as soon as the normalized question contains at least one of
the tokens `h1`, `h2` (not necessarily both) and the lowercased question
contains `level`; under that classification, an equality option makes
rule 1 fire. -/
theorem c1_rule1_one_sided (q : List Char) (opts : List (Char × List Char))
    (hq : containsSub (normalize_equation q) "h1".data = true ∨
          containsSub (normalize_equation q) "h2".data = true)
    (hlevel : containsSub (lowerStr q) "level".data = true)
    (hex : ∃ p ∈ opts, containsSub (normalize_equation p.2) "h1=h2".data = true) :
    baseline_heuristic q opts =
      sortedDedup ((opts.filter fun p =>
        containsSub (normalize_equation p.2) "h1=h2".data).map fun p => p.1) := by
  have hclass : looks_like_liquid q = true := by
    simp only [looks_like_liquid, List.any_cons, List.any_nil, Bool.or_false,
      Bool.and_eq_true, Bool.or_eq_true]
    exact ⟨hq, hlevel⟩
  exact baseline_rule1 hclass hex

theorem c1_rule1_one_sided_witness :
    (containsSub (normalize_equation "level h1".data) "h1".data = true ∨
      containsSub (normalize_equation "level h1".data) "h2".data = true) ∧
    containsSub (lowerStr "level h1".data) "level".data = true ∧
    baseline_heuristic "level h1".data [('B', "h1 = h2".data)] =
      sortedDedup (([('B', "h1 = h2".data)].filter fun p =>
        containsSub (normalize_equation p.2) "h1=h2".data).map fun p => p.1) ∧
    sortedDedup (([('B', "h1 = h2".data)].filter fun p =>
      containsSub (normalize_equation p.2) "h1=h2".data).map fun p => p.1) =
      "B".data :=
  ⟨Or.inl (by decide), by decide,
    c1_rule1_one_sided _ _ (Or.inl (by decide)) (by decide)
      ⟨('B', "h1 = h2".data), by decide, by decide⟩, by decide⟩

theorem filter_isEmpty_eq_not_any {α : Type} (p : α → Bool) (l : List α) :
    (l.filter p).isEmpty = !l.any p := by
  induction l with
  | nil => rfl
  | cons x rest ih =>
    by_cases hx : p x = true
    · simp [List.filter_cons, List.any_cons, hx]
    · rw [Bool.not_eq_true] at hx
      simp [List.filter_cons, List.any_cons, hx, ih]

theorem map_isEmpty_eq {α β : Type} (f : α → β) (l : List α) :
    (l.map f).isEmpty = l.isEmpty := by
  cases l <;> rfl

theorem cannot_det_isEmpty_eq (opts : List (Char × List Char)) :
    (cannot_det_letters opts).isEmpty =
      !(opts.any fun p =>
        containsSub (lowerStr p.2) "cannot be determined".data) := by
  simp only [cannot_det_letters]
  rw [map_isEmpty_eq, filter_isEmpty_eq_not_any]

theorem eq_h1h2_isEmpty_eq (opts : List (Char × List Char)) :
    (eq_h1h2_opts opts).isEmpty =
      !(opts.any fun p => containsSub (normalize_equation p.2) "h1=h2".data) := by
  simp only [eq_h1h2_opts, norm_opts]
  rw [filter_isEmpty_eq_not_any, List.any_map]
  rfl

theorem norm_opts_any_eq (opts : List (Char × List Char)) (tok : List Char) :
    ((norm_opts opts).any fun p => containsSub p.2 tok) =
      (opts.any fun p => containsSub (normalize_equation p.2) tok) := by
  simp only [norm_opts]
  rw [List.any_map]
  rfl

/-- C6: when rule 1 does not fire, the cascade returns the deduplicated,
sorted letters of the options whose text case-insensitively contains
`cannot be determined` exactly when some option's normalized text contains
`h1>h2`, some contains `h2>h1`, no option's normalized text contains
`h1=h2`, and the candidate set is non-empty; in every other case it falls
through to the default rule. -/
theorem c6_indeterminacy_rule (q : List Char) (opts : List (Char × List Char))
    (h : ¬(looks_like_liquid q = true ∧ (eq_h1h2_opts opts).isEmpty = false)) :
    baseline_heuristic q opts =
      if (opts.any fun p =>
            containsSub (lowerStr p.2) "cannot be determined".data)
          && (opts.any fun p =>
            containsSub (normalize_equation p.2) "h1>h2".data)
          && (opts.any fun p =>
            containsSub (normalize_equation p.2) "h2>h1".data)
          && !(opts.any fun p =>
            containsSub (normalize_equation p.2) "h1=h2".data) then
        sortedDedup (cannot_det_letters opts)
      else defaultChoice opts := by
  have hcond : (looks_like_liquid q && !(eq_h1h2_opts opts).isEmpty) = false := by
    by_cases hl : looks_like_liquid q = true
    · have he : (eq_h1h2_opts opts).isEmpty = true := by
        by_cases he2 : (eq_h1h2_opts opts).isEmpty = false
        · exact absurd ⟨hl, he2⟩ h
        · simpa using he2
      simp [he]
    · have hl2 : looks_like_liquid q = false := by simpa using hl
      simp [hl2]
  simp only [baseline_heuristic, hcond, Bool.false_eq_true, if_false]
  rw [cannot_det_isEmpty_eq, eq_h1h2_isEmpty_eq, norm_opts_any_eq,
    norm_opts_any_eq, Bool.not_not]

theorem c6_indeterminacy_rule_witness :
    ¬(looks_like_liquid "Compare h1 and h2 in the tubes.".data = true ∧
      (eq_h1h2_opts [('A', "h1>h2".data), ('B', "h2>h1".data),
        ('C', "Cannot be determined".data)]).isEmpty = false) ∧
    baseline_heuristic "Compare h1 and h2 in the tubes.".data
      [('A', "h1>h2".data), ('B', "h2>h1".data),
        ('C', "Cannot be determined".data)] = "C".data :=
  ⟨by decide,
    (c6_indeterminacy_rule _ _ (by decide)).trans (by decide)⟩

/-! Lemmas about the batch driver model. -/

theorem process_item_rid {d : List (List Char × PyValue)}
    {r : PyValue × List Char} (h : process_item d = Except.ok r) :
    r.1 = ridOf d := by
  simp only [process_item] at h
  rcases hq : (dictGet d "question".data).getD (PyValue.str []) with
    _ | b | n | s | l | e <;> rw [hq] at h
  · exact Except.noConfusion h
  · exact Except.noConfusion h
  · exact Except.noConfusion h
  · injection h with h
    subst h
    rfl
  · exact Except.noConfusion h
  · exact Except.noConfusion h

theorem batchStep_dict_ok (d : List (List Char × PyValue)) :
    isOkE (batchStep (PyValue.dict d)) = true := by
  simp only [batchStep]
  rcases hp : process_item d with e | r
  · by_cases hn : isNone (ridOf d) = true
    · simp [hn, isOkE]
    · have hn2 : isNone (ridOf d) = false := by simpa using hn
      simp [hn2, isOkE]
  · simp [isOkE]

/-- C2: a mapping whose rid resolves to a non-`None` value yields exactly
one result record carrying that rid, whether or not its processing raises;
in the exception case the answer is the empty string, and the loop body
never propagates the exception. -/
theorem c2_one_result_per_id (d : List (List Char × PyValue))
    (h : isNone (ridOf d) = false) :
    ∃ ans : List Char,
      batchStep (PyValue.dict d) = Except.ok [(ridOf d, ans)] ∧
      (isOkE (process_item d) = false → ans = []) := by
  rcases hp : process_item d with e | r
  · refine ⟨[], ?_, fun _ => rfl⟩
    simp [batchStep, hp, h]
  · refine ⟨r.2, ?_, ?_⟩
    · have hr1 : r.1 = ridOf d := process_item_rid hp
      simp only [batchStep, hp, ← hr1]
    · intro hcontra
      simp [isOkE] at hcontra

theorem c2_one_result_per_id_witness :
    isNone (ridOf [("rid".data, PyValue.int 7),
      ("question".data, PyValue.int 3)]) = false ∧
    ∃ ans : List Char,
      batchStep (PyValue.dict [("rid".data, PyValue.int 7),
        ("question".data, PyValue.int 3)]) =
        Except.ok [(ridOf [("rid".data, PyValue.int 7),
          ("question".data, PyValue.int 3)], ans)] ∧
      (isOkE (process_item [("rid".data, PyValue.int 7),
        ("question".data, PyValue.int 3)]) = false → ans = []) :=
  ⟨rfl, c2_one_result_per_id _ rfl⟩

/-- C10: a mapping whose rid is missing or `None` still yields an output
entry when its processing succeeds — carrying the `None` rid and the
computed answer — and its record is dropped exactly when processing
raises. -/
theorem c10_null_id_kept (d : List (List Char × PyValue))
    (h : isNone (ridOf d) = true) :
    (∀ r, process_item d = Except.ok r →
      batchStep (PyValue.dict d) = Except.ok [(PyValue.none, r.2)]) ∧
    (batchStep (PyValue.dict d) = Except.ok [] ↔
      isOkE (process_item d) = false) := by
  have hrid : ridOf d = PyValue.none := by
    rcases hr : ridOf d with _ | b | n | s | l | e
    · rfl
    all_goals rw [hr] at h; exact Bool.noConfusion h
  constructor
  · intro r hp
    have hr1 : r.1 = ridOf d := process_item_rid hp
    have hre : r = (PyValue.none, r.2) := by
      rw [← hrid, ← hr1]
    simp only [batchStep, hp, ← hre]
  · constructor
    · intro hb
      rcases hp : process_item d with e | r
      · simp [isOkE]
      · exfalso
        simp only [batchStep, hp] at hb
        injection hb with hb
        exact List.noConfusion hb
    · intro hfail
      rcases hp : process_item d with e | r
      · simp [batchStep, hp, h]
      · rw [hp] at hfail
        simp [isOkE] at hfail

theorem c10_null_id_kept_witness :
    isNone (ridOf [("question".data,
      PyValue.str "A. foo\nB. bar".data)]) = true ∧
    batchStep (PyValue.dict [("question".data,
      PyValue.str "A. foo\nB. bar".data)]) =
      Except.ok [(PyValue.none, "A".data)] :=
  ⟨rfl, (c10_null_id_kept [("question".data,
      PyValue.str "A. foo\nB. bar".data)] rfl).1 (PyValue.none, "A".data) rfl⟩

theorem batchStep_ok_iff (item : PyValue) :
    isOkE (batchStep item) = isDictVal item := by
  rcases item with _ | b | n | s | l | d
  · rfl
  · rfl
  · rfl
  · rfl
  · rfl
  · rw [batchStep_dict_ok d]
    rfl

theorem runBatch_ok_iff (items : List PyValue) :
    isOkE (runBatch items) = items.all isDictVal := by
  induction items with
  | nil => rfl
  | cons item rest ih =>
    simp only [runBatch, List.all_cons]
    rcases hb : batchStep item with e | rs
    · have hi : isDictVal item = false := by
        rw [← batchStep_ok_iff, hb]
        rfl
      simp [hi, isOkE]
    · have hi : isDictVal item = true := by
        rw [← batchStep_ok_iff, hb]
        rfl
      rw [hi, Bool.true_and, ← ih]
      rcases hr : runBatch rest with e2 | rest2 <;> rfl

/-- C3: the batch driver exits with code 1 exactly when the input cannot
be read/deserialized, when the deserialized value is not a list of
mappings (including a list with a non-mapping element, which aborts the
loop with an uncaught exception), or when the output cannot be written;
in every other case it exits 0, even if individual records failed. -/
theorem c3_exit_codes (readRes : Except Unit PyValue) (writeOk : Bool) :
    mainModel readRes writeOk =
      if claimFatalCond readRes writeOk = true then 1 else 0 := by
  rcases readRes with e | data
  · rfl
  · rcases data with _ | b | n | s | items | d
    · rfl
    · rfl
    · rfl
    · rfl
    · simp only [mainModel, claimFatalCond, isListOfDicts]
      rcases hr : runBatch items with e2 | res
      · have hall : items.all isDictVal = false := by
          rw [← runBatch_ok_iff, hr]
          rfl
        simp [hall]
      · have hall : items.all isDictVal = true := by
          rw [← runBatch_ok_iff, hr]
          rfl
        rcases writeOk with _ | _ <;> simp [hall]
    · rfl

/-- C4: the result of processing a record depends only on its `rid` and
`question` fields; two mappings agreeing on those two lookups — whatever
their `image` fields hold — process to identical results. -/
theorem c4_image_independent (d1 d2 : List (List Char × PyValue))
    (hr : dictGet d1 "rid".data = dictGet d2 "rid".data)
    (hq : dictGet d1 "question".data = dictGet d2 "question".data) :
    process_item d1 = process_item d2 := by
  simp only [process_item, ridOf, hr, hq]

theorem c4_image_independent_witness :
    dictGet [("rid".data, PyValue.int 1),
        ("question".data, PyValue.str "A. x\nB. y".data)] "rid".data =
      dictGet [("rid".data, PyValue.int 1),
        ("question".data, PyValue.str "A. x\nB. y".data),
        ("image".data, PyValue.int 99)] "rid".data ∧
    dictGet [("rid".data, PyValue.int 1),
        ("question".data, PyValue.str "A. x\nB. y".data)] "question".data =
      dictGet [("rid".data, PyValue.int 1),
        ("question".data, PyValue.str "A. x\nB. y".data),
        ("image".data, PyValue.int 99)] "question".data ∧
    process_item [("rid".data, PyValue.int 1),
        ("question".data, PyValue.str "A. x\nB. y".data)] =
      process_item [("rid".data, PyValue.int 1),
        ("question".data, PyValue.str "A. x\nB. y".data),
        ("image".data, PyValue.int 99)] :=
  ⟨rfl, rfl,
    c4_image_independent
      [("rid".data, PyValue.int 1),
        ("question".data, PyValue.str "A. x\nB. y".data)]
      [("rid".data, PyValue.int 1),
        ("question".data, PyValue.str "A. x\nB. y".data),
        ("image".data, PyValue.int 99)] rfl rfl⟩

/-! Lemmas about the option extractor. -/

theorem startsLetterDot_append {l t : List Char} (h : startsLetterDot l = true) :
    startsLetterDot (l ++ t) = true := by
  rcases l with _ | ⟨a, _ | ⟨b, r⟩⟩
  · cases h
  · cases h
  · exact h

theorem hasLetterDot_cons {c : Char} {l : List Char} (h : hasLetterDot l = true) :
    hasLetterDot (c :: l) = true := by
  simp only [hasLetterDot]
  rw [h, Bool.or_true]

theorem hasLetterDot_tail {c : Char} {l : List Char}
    (h : hasLetterDot (c :: l) = false) : hasLetterDot l = false := by
  simp only [hasLetterDot, Bool.or_eq_false_iff] at h
  exact h.2

theorem hasLetterDot_append_right {l t : List Char}
    (h : hasLetterDot l = true) : hasLetterDot (l ++ t) = true := by
  induction l with
  | nil => cases h
  | cons c rest ih =>
    simp only [hasLetterDot, Bool.or_eq_true] at h
    rcases h with h | h
    · simp only [List.cons_append, hasLetterDot, Bool.or_eq_true]
      exact Or.inl (startsLetterDot_append h)
    · simp only [List.cons_append]
      exact hasLetterDot_cons (ih h)

theorem hasLetterDot_append_left {s l : List Char}
    (h : hasLetterDot l = true) : hasLetterDot (s ++ l) = true := by
  induction s with
  | nil => exact h
  | cons c rest ih =>
    simp only [List.cons_append]
    exact hasLetterDot_cons ih

theorem hasLetterDot_isSub {l1 l2 : List Char}
    (h : ∃ s t, l2 = s ++ l1 ++ t) (hl : hasLetterDot l1 = true) :
    hasLetterDot l2 = true := by
  obtain ⟨s, t, rfl⟩ := h
  exact hasLetterDot_append_right (hasLetterDot_append_left hl)

theorem replaceCR_LD {l : List Char}
    (h : hasLetterDot (replaceCR l) = true) : hasLetterDot l = true := by
  induction l with
  | nil => cases h
  | cons c rest ih =>
    simp only [replaceCR, List.map_cons] at h
    simp only [hasLetterDot, Bool.or_eq_true] at h ⊢
    rcases h with h | h
    · left
      rcases rest with _ | ⟨d, r2⟩
      · cases h
      · simp only [List.map_cons] at h
        have h1 := (Bool.and_eq_true _ _).mp h
        by_cases hc : (c == '\r') = true
        · rw [if_pos hc] at h1
          exact absurd h1.1 (by decide)
        · rw [if_neg hc] at h1
          by_cases hd : (d == '\r') = true
          · rw [if_pos hd] at h1
            exact absurd h1.2 (by decide)
          · rw [if_neg hd] at h1
            simp only [startsLetterDot]
            rw [h1.1, h1.2]
            rfl
    · right
      exact ih h

theorem replaceCRLF_LD {l : List Char}
    (h : hasLetterDot (replaceCRLF l) = true) : hasLetterDot l = true := by
  induction l using replaceCRLF.induct with
  | case1 => cases h
  | case2 c =>
    simp only [replaceCRLF] at h
    exact h
  | case3 c d rest hg ih =>
    rw [replaceCRLF, if_pos hg] at h
    simp only [hasLetterDot, Bool.or_eq_true] at h
    rcases h with h | h
    · rcases hr : replaceCRLF rest with _ | ⟨x, xs⟩ <;> rw [hr] at h
      · cases h
      · simp only [startsLetterDot] at h
        have h1 := (Bool.and_eq_true _ _).mp h
        exact absurd h1.1 (by decide)
    · exact hasLetterDot_cons (hasLetterDot_cons (ih h))
  | case4 c d rest hg ih =>
    rw [replaceCRLF, if_neg hg] at h
    simp only [hasLetterDot, Bool.or_eq_true] at h ⊢
    rcases h with h | h
    · left
      rcases hr : replaceCRLF (d :: rest) with _ | ⟨x, xs⟩ <;> rw [hr] at h
      · cases h
      · have hx : x = d ∨ x = '\n' := by
          rcases rest with _ | ⟨e, r3⟩
          · simp only [replaceCRLF] at hr
            injection hr with h1 h2
            exact Or.inl h1.symm
          · rw [replaceCRLF] at hr
            by_cases hg2 : (d == '\r' && e == '\n') = true
            · rw [if_pos hg2] at hr
              injection hr with h1 h2
              exact Or.inr h1.symm
            · rw [if_neg hg2] at hr
              injection hr with h1 h2
              exact Or.inl h1.symm
        have h1 := (Bool.and_eq_true _ _).mp h
        rcases hx with rfl | rfl
        · simp only [startsLetterDot]
          rw [h1.1, h1.2]
          rfl
        · exact absurd h1.2 (by decide)
    · right
      have h2 := ih h
      simp only [hasLetterDot, Bool.or_eq_true] at h2
      exact h2
theorem dropWhile_isSuffix (p : Char → Bool) (l : List Char) :
    ∃ s, l = s ++ l.dropWhile p := by
  induction l with
  | nil => exact ⟨[], rfl⟩
  | cons c rest ih =>
    by_cases hc : p c = true
    · obtain ⟨s, hs⟩ := ih
      refine ⟨c :: s, ?_⟩
      rw [List.dropWhile_cons, if_pos hc, List.cons_append, ← hs]
    · refine ⟨[], ?_⟩
      rw [List.dropWhile_cons, if_neg hc, List.nil_append]

theorem stripPy_isSub (l : List Char) : ∃ s t, l = s ++ stripPy l ++ t := by
  obtain ⟨s, hs⟩ := dropWhile_isSuffix isSpacePy l
  obtain ⟨u, hu⟩ := dropWhile_isSuffix isSpacePy (l.dropWhile isSpacePy).reverse
  refine ⟨s, u.reverse, ?_⟩
  have h2 : l.dropWhile isSpacePy = stripPy l ++ u.reverse := by
    have h3 := congrArg List.reverse hu
    simpa [stripPy, List.reverse_append] using h3
  rw [List.append_assoc, ← h2]
  exact hs

theorem splitLines_ne_nil (l : List Char) : splitLines l ≠ [] := by
  rcases l with _ | ⟨c, rest⟩
  · simp [splitLines]
  · simp only [splitLines]
    by_cases hc : (c == '\n') = true
    · rw [if_pos hc]
      simp
    · rw [if_neg hc]
      rcases h2 : splitLines rest with _ | ⟨h, t⟩ <;> simp

theorem splitLines_head_prefix : ∀ (l : List Char) (h : List Char)
    (t : List (List Char)), splitLines l = h :: t → ∃ r, l = h ++ r := by
  intro l
  induction l with
  | nil =>
    intro h t he
    simp only [splitLines] at he
    injection he with h1 h2
    exact ⟨[], by rw [← h1]; rfl⟩
  | cons c rest ih =>
    intro h t he
    simp only [splitLines] at he
    by_cases hc : (c == '\n') = true
    · rw [if_pos hc] at he
      injection he with h1 h2
      exact ⟨c :: rest, by rw [← h1]; rfl⟩
    · rw [if_neg hc] at he
      rcases hsp : splitLines rest with _ | ⟨h0, t0⟩
      · exact absurd hsp (splitLines_ne_nil rest)
      · rw [hsp] at he
        injection he with h1 h2
        obtain ⟨r, hr⟩ := ih h0 t0 hsp
        refine ⟨r, ?_⟩
        rw [← h1, List.cons_append, ← hr]

theorem mem_splitLines_isSub : ∀ (l : List Char) (line : List Char),
    line ∈ splitLines l → ∃ s t, l = s ++ line ++ t := by
  intro l
  induction l with
  | nil =>
    intro line h
    simp only [splitLines, List.mem_singleton] at h
    exact ⟨[], [], by rw [h]; rfl⟩
  | cons c rest ih =>
    intro line h
    simp only [splitLines] at h
    by_cases hc : (c == '\n') = true
    · rw [if_pos hc] at h
      rcases List.mem_cons.mp h with rfl | h2
      · exact ⟨[], c :: rest, rfl⟩
      · obtain ⟨s, t, hst⟩ := ih line h2
        exact ⟨c :: s, t, by rw [hst]; rfl⟩
    · rw [if_neg hc] at h
      rcases hsp : splitLines rest with _ | ⟨h0, t0⟩
      · exact absurd hsp (splitLines_ne_nil rest)
      · rw [hsp] at h
        rcases List.mem_cons.mp h with rfl | h2
        · obtain ⟨r, hr⟩ := splitLines_head_prefix rest h0 t0 hsp
          exact ⟨[], r, by rw [hr]; rfl⟩
        · obtain ⟨s, t, hst⟩ := ih line (hsp ▸ List.mem_cons_of_mem h0 h2)
          exact ⟨c :: s, t, by rw [hst]; rfl⟩

theorem scanOptionsF_letters : ∀ (fuel : Nat) (l : List Char),
    ∀ p ∈ scanOptionsF fuel l, isUpperLetterPy p.1 = true := by
  intro fuel
  induction fuel with
  | zero =>
    intro l p hp
    simp [scanOptionsF] at hp
  | succ fuel ih =>
    intro l p hp
    rcases l with _ | ⟨a, _ | ⟨b, rest2⟩⟩
    · simp [scanOptionsF] at hp
    · simp [scanOptionsF] at hp
    · rw [scanOptionsF] at hp
      by_cases hg : (isUpperLetterPy a && b == '.') = true
      · rw [if_pos hg] at hp
        rcases List.mem_cons.mp hp with rfl | h2
        · exact ((Bool.and_eq_true _ _).mp hg).1
        · exact ih _ p h2
      · rw [if_neg hg] at hp
        exact ih _ p hp

theorem scanOptionsF_nil_of_noLD : ∀ (fuel : Nat) (l : List Char),
    hasLetterDot l = false → scanOptionsF fuel l = [] := by
  intro fuel
  induction fuel with
  | zero =>
    intro l h
    rfl
  | succ fuel ih =>
    intro l h
    rcases l with _ | ⟨a, _ | ⟨b, rest2⟩⟩
    · rfl
    · rfl
    · have hs : startsLetterDot (a :: b :: rest2) = false := by
        simp only [hasLetterDot, Bool.or_eq_false_iff] at h
        exact h.1
      have hg : (isUpperLetterPy a && b == '.') = false := hs
      rw [scanOptionsF, if_neg (by rw [hg]; exact Bool.false_ne_true)]
      exact ih _ (hasLetterDot_tail h)

theorem fallbackLine_some {line : List Char} {p : Char × List Char}
    (h : fallbackLine line = Option.some p) :
    isUpperLetterPy p.1 = true ∧ startsLetterDot (stripPy line) = true := by
  unfold fallbackLine at h
  rcases hs : stripPy line with _ | ⟨a, rest⟩ <;> rw [hs] at h
  · exact Option.noConfusion h
  rcases rest with _ | ⟨b, rest2⟩
  · exact Option.noConfusion h
  dsimp only at h
  by_cases hg : (isUpperLetterPy a && b == '.') = true
  · rw [if_pos hg] at h
    constructor
    · rcases hr : rest2.dropWhile isSpacePy with _ | ⟨x, xs⟩ <;> rw [hr] at h
      · exact Option.noConfusion h
      · have h2 : (a, stripPy (x :: xs)) = p := Option.some.inj h
        rw [← h2]
        exact ((Bool.and_eq_true _ _).mp hg).1
    · exact hg
  · rw [if_neg hg] at h
    exact Option.noConfusion h

theorem fallbackLine_none_of_noLD {line : List Char}
    (h : hasLetterDot line = false) : fallbackLine line = Option.none := by
  rcases hf : fallbackLine line with _ | p
  · rfl
  · exfalso
    have h2 := (fallbackLine_some hf).2
    have h3 : hasLetterDot (stripPy line) = true := by
      rcases hsp : stripPy line with _ | ⟨x, xs⟩
      · rw [hsp] at h2
        exact Bool.noConfusion h2
      · rw [hsp] at h2
        simp only [hasLetterDot, Bool.or_eq_true]
        exact Or.inl h2
    have h4 := hasLetterDot_isSub (stripPy_isSub line) h3
    rw [h] at h4
    exact Bool.noConfusion h4

theorem parse_options_nil_of_noLD {s : List Char}
    (h : hasLetterDot s = false) : parse_options s = [] := by
  have h1 : hasLetterDot (replaceCRLF s) = false := by
    cases h2 : hasLetterDot (replaceCRLF s)
    · rfl
    · rw [replaceCRLF_LD h2] at h
      exact Bool.noConfusion h
  have h0 : hasLetterDot (replaceCR (replaceCRLF s)) = false := by
    cases h2 : hasLetterDot (replaceCR (replaceCRLF s))
    · rfl
    · rw [replaceCR_LD h2] at h1
      exact Bool.noConfusion h1
  simp only [parse_options]
  rw [scanOptionsF_nil_of_noLD _ _ h0]
  simp only [List.isEmpty_nil, Bool.not_true, Bool.false_eq_true, if_false]
  rw [List.filterMap_eq_nil_iff]
  intro line hline
  apply fallbackLine_none_of_noLD
  cases hv : hasLetterDot line
  · rfl
  · exfalso
    have h5 := hasLetterDot_isSub
      (mem_splitLines_isSub _ line hline) hv
    rw [h0] at h5
    exact Bool.noConfusion h5

theorem baseline_no_options (q : List Char) : baseline_heuristic q [] = [] := by
  simp [baseline_heuristic, eq_h1h2_opts, norm_opts, cannot_det_letters,
    defaultChoice]

/-- C7: extraction on `A. foo\nB. bar\nC. baz` yields exactly the three
options in order; on any text with no letter-dot pattern it yields the
empty sequence, and the decision on such a text is the empty string. -/
theorem c7_extraction :
    parse_options "A. foo\nB. bar\nC. baz".data =
      [('A', "foo".data), ('B', "bar".data), ('C', "baz".data)] ∧
    ∀ s : List Char, hasLetterDot s = false →
      parse_options s = [] ∧
      baseline_heuristic s (parse_options s) = [] := by
  refine ⟨by decide, fun s h => ?_⟩
  have h1 := parse_options_nil_of_noLD h
  refine ⟨h1, ?_⟩
  rw [h1]
  exact baseline_no_options s

theorem c7_extraction_witness :
    hasLetterDot "no options in this text".data = false ∧
    parse_options "no options in this text".data = [] ∧
    baseline_heuristic "no options in this text".data
      (parse_options "no options in this text".data) = [] :=
  ⟨by decide,
    (c7_extraction.2 "no options in this text".data (by decide)).1,
    (c7_extraction.2 "no options in this text".data (by decide)).2⟩

theorem parse_options_letters {q : List Char} :
    ∀ p ∈ parse_options q, isUpperLetterPy p.1 = true := by
  intro p hp
  simp only [parse_options] at hp
  split at hp
  · simp only [List.mem_map] at hp
    obtain ⟨p0, hp0, rfl⟩ := hp
    exact scanOptionsF_letters _ _ p0 hp0
  · simp only [List.mem_filterMap] at hp
    obtain ⟨line, _, hline⟩ := hp
    exact (fallbackLine_some hline).1

/-- C9: every extracted option letter is a single uppercase Latin or
Cyrillic letter, and every character of the decision's answer on the
extracted options is such a letter, taken from the extracted options. -/
theorem c9_answer_letters (q : List Char) :
    (∀ p ∈ parse_options q, isUpperLetterPy p.1 = true) ∧
    (∀ c ∈ baseline_heuristic q (parse_options q),
      isUpperLetterPy c = true ∧ ∃ p ∈ parse_options q, p.1 = c) := by
  refine ⟨parse_options_letters, ?_⟩
  intro c hc
  obtain ⟨p, hp, hpc⟩ := baseline_letters c hc
  subst hpc
  exact ⟨parse_options_letters p hp, p, hp, rfl⟩

theorem c9_answer_letters_witness :
    ('D', "dogs".data) ∈ parse_options "D. dogs\nE. cats".data ∧
    isUpperLetterPy 'D' = true :=
  ⟨by decide,
    (c9_answer_letters "D. dogs\nE. cats".data).1 ('D', "dogs".data) (by decide)⟩
